import Mathlib

/-!
# go-file: path utilities (package `file`)

A shallow embedding of `file.go` together with the parts of the Go standard
library and of the operating system it calls:

* Go strings are byte sequences; they are represented as `List Char`, one
  `Char` per byte, so that `List.length` is Go's `len`.
* `path/filepath.Clean` and `path/filepath.Dir` (Unix flavour) are embedded
  from the Go standard library, byte by byte.
* `strings.Index`, `strings.Contains`, `strings.Split` likewise.
* The file system is a finite table from canonical paths to metadata, with
  POSIX path resolution (no symbolic links), `stat`, `open(O_CREAT|O_WRONLY)`,
  `unlink`/`rmdir`, `mkdir` and Go's `os.MkdirAll`.
* The package itself: `GetModRootPath`, `GetRootPath`, `GetCmdRootPath`,
  `IsExist`, `Size`, `Exists`, `IsWritable`, `PreCreateDirectory` and the
  package variable `rootPath`.
-/

namespace file

/-! ## Go strings -/

/-- A Go string: a sequence of bytes, one `Char` per byte. -/
abbrev GoString := List Char

/-- The path separator test `os.IsPathSeparator` on Unix. -/
def IsPathSeparator (c : Char) : Bool := c == '/'

/-! ## `path/filepath.Clean` and `path/filepath.Dir` -/

/-- The backtracking of `Clean` at a `..` element, on the reversed output
buffer (head = last byte written):
`out.w--; for out.w > dotdot && !os.IsPathSeparator(out.index(out.w)) { out.w-- }`.
The byte read by `out.index(out.w)` is the one just dropped. -/
def cleanBacktrack (dotdot : Nat) : List Char → List Char
  | [] => []
  | x :: out => if dotdot < out.length && !IsPathSeparator x then cleanBacktrack dotdot out else out

/-- The main loop of `filepath.Clean`.  `rest` is `path[r:]`, `out` is the
output buffer reversed (its length is `out.w`), `dotdot` is the index where a
`..` must stop.  Every iteration consumes at least one byte of `rest`, so the
fuel `rest.length` is never exhausted. -/
def cleanLoop (rooted : Bool) : Nat → List Char → List Char → Nat → List Char
  | 0, _, out, _ => out
  | _ + 1, [], out, _ => out
  | fuel + 1, c :: rest, out, dotdot =>
    if IsPathSeparator c then
      -- empty path element
      cleanLoop rooted fuel rest out dotdot
    else if c == '.' && (rest.isEmpty || rest.head?.any IsPathSeparator) then
      -- . element
      cleanLoop rooted fuel rest out dotdot
    else if c == '.' && rest.head? == some '.' &&
        (rest.tail.isEmpty || rest.tail.head?.any IsPathSeparator) then
      -- .. element: remove to last separator
      if dotdot < out.length then
        cleanLoop rooted fuel rest.tail (cleanBacktrack dotdot out) dotdot
      else if !rooted then
        let out1 := if 0 < out.length then '/' :: out else out
        let out2 := '.' :: '.' :: out1
        cleanLoop rooted fuel rest.tail out2 out2.length
      else
        cleanLoop rooted fuel rest.tail out dotdot
    else
      -- real path element: add slash if needed, copy element
      let out1 :=
        if (rooted && out.length != 1) || (!rooted && out.length != 0) then '/' :: out else out
      let elem := (c :: rest).takeWhile (fun b => !IsPathSeparator b)
      let rest1 := (c :: rest).dropWhile (fun b => !IsPathSeparator b)
      cleanLoop rooted fuel rest1 (elem.reverse ++ out1) dotdot

/-- The function `filepath.Clean` on Unix (no volume name). -/
def Clean (path : GoString) : GoString :=
  match path with
  | [] => ['.']
  | c :: rest =>
    let rooted := IsPathSeparator c
    let out :=
      if rooted then cleanLoop true path.length rest ['/'] 1
      else cleanLoop false path.length path [] 0
    if out.isEmpty then ['.'] else out.reverse

/-- The prefix `path[:i+1]` where `i` is the index of the last separator of
`path` (`-1` when there is none), as computed by the scan in `filepath.Dir`. -/
def dirPrefix (path : GoString) : GoString :=
  (path.reverse.dropWhile (fun b => !IsPathSeparator b)).reverse

/-- The function `filepath.Dir` on Unix. -/
def Dir (path : GoString) : GoString := Clean (dirPrefix path)

/-! ## `strings.Index`, `strings.Contains`, `strings.Split` -/

/-- The function `strings.HasPrefix`. -/
def HasPrefix : GoString → GoString → Bool
  | _, [] => true
  | [], _ :: _ => false
  | a :: s, b :: p => a == b && HasPrefix s p

/-- The function `strings.Index`: the index of the first instance of `sep`
in `s`; `none` stands for Go's `-1`. -/
def Index : GoString → GoString → Option Nat
  | [], sep => if sep.isEmpty then some 0 else none
  | c :: s, sep =>
    if HasPrefix (c :: s) sep then some 0 else (Index s sep).map (fun i => i + 1)

/-- The function `strings.Contains`: `Index(s, substr) >= 0`. -/
def Contains (s substr : GoString) : Bool := (Index s substr).isSome

/-- The loop of `strings.genSplit` for a non-empty separator:
`m := Index(s, sep); if m < 0 { break }; a[i] = s[:m]; s = s[m+len(sep):]`,
closed by `a[i] = s`.  Go bounds the loop by `Count(s, sep)`, which is the
number of times `Index` succeeds; every round consumes at least one byte, so
the fuel `len(s)` is never exhausted. -/
def splitLoop : Nat → GoString → GoString → List GoString
  | 0, s, _ => [s]
  | fuel + 1, s, sep =>
    match Index s sep with
    | none => [s]
    | some m => s.take m :: splitLoop fuel (s.drop (m + sep.length)) sep

/-- The function `strings.Split`.  With an empty separator Go splits after
every character. -/
def Split (s sep : GoString) : List GoString :=
  if sep.isEmpty then s.map (fun c => [c]) else splitLoop s.length s sep

/-! ## The file system -/

/-- The error numbers the modelled system calls report. -/
inductive Errno
  | ENOENT | ENOTDIR | EACCES | EISDIR | EEXIST | ENOTEMPTY | EINVAL | EBUSY
deriving DecidableEq, Repr

/-- The metadata of one file system entry.  `searchable` is the execute
(search) permission of the calling process on a directory, `writable` its
write permission on the entry. -/
structure Node where
  isDir : Bool
  size : Int
  searchable : Bool
  writable : Bool
deriving DecidableEq, Repr

deriving instance DecidableEq for Except

/-- One path element (a file name). -/
abbrev Name := List Char

/-- A canonical path: the names from the root down; `[]` is the root. -/
abbrev CPath := List Name

/-- A file system state: a finite table from canonical paths to entries.
The first binding of a path is the one in force. -/
abbrev FS := List (CPath × Node)

/-- The entry stored at a canonical path. -/
def FS.lookup : FS → CPath → Option Node
  | [], _ => none
  | (k, n) :: fs, p => if k = p then some n else FS.lookup fs p

/-- The state of the process environment the package reads: the file system
and the string `os.Getwd` returns. -/
structure World where
  fs : FS
  cwd : GoString
deriving DecidableEq

/-- The pieces of a path between separators, as `strings.Split(p, "/")`. -/
def splitSlash : GoString → List GoString
  | [] => [[]]
  | c :: cs =>
    if IsPathSeparator c then [] :: splitSlash cs
    else
      match splitSlash cs with
      | [] => [[c]]
      | h :: t => (c :: h) :: t

/-- The non-empty elements of a path. -/
def components (p : GoString) : List Name := (splitSlash p).filter (fun s => !s.isEmpty)

/-- A relative path is resolved from the working directory. -/
def absPath (w : World) (p : GoString) : GoString :=
  if p.head? = some '/' then p else w.cwd ++ '/' :: p

/-- One step of POSIX path resolution: looking up the element `c` in the
directory reached so far. -/
def walkStep (fs : FS) (st : Except Errno (CPath × Node)) (c : Name) :
    Except Errno (CPath × Node) :=
  match st with
  | .error e => .error e
  | .ok (cur, nd) =>
    if !nd.isDir then .error Errno.ENOTDIR
    else if !nd.searchable then .error Errno.EACCES
    else if c = ['.'] then .ok (cur, nd)
    else if c = ['.', '.'] then
      match fs.lookup cur.dropLast with
      | some pn => .ok (cur.dropLast, pn)
      | none => .error Errno.ENOENT
    else
      match fs.lookup (cur ++ [c]) with
      | some n => .ok (cur ++ [c], n)
      | none => .error Errno.ENOENT

/-- Resolution of a list of path elements from the root. -/
def walk (fs : FS) (cs : List Name) : Except Errno (CPath × Node) :=
  cs.foldl (walkStep fs)
    (match fs.lookup [] with
     | some n => .ok ([], n)
     | none => .error Errno.ENOENT)

/-- POSIX path resolution without symbolic links: the canonical path and the
entry a path string names.  The empty string names nothing; a trailing
separator demands a directory. -/
def resolve (w : World) (p : GoString) : Except Errno (CPath × Node) :=
  if p.isEmpty then .error Errno.ENOENT
  else
    match walk w.fs (components (absPath w p)) with
    | .error e => .error e
    | .ok (cp, n) =>
      if p.getLast? = some '/' && !n.isDir then .error Errno.ENOTDIR else .ok (cp, n)

/-- Resolution of the directory that holds the last element of a path, for
the system calls that create or remove an entry.  The caller has excluded
the empty string and the paths without elements. -/
def resolveParent (w : World) (p : GoString) : Except Errno (CPath × Node) :=
  match walk w.fs (components (absPath w p)).dropLast with
  | .error e => .error e
  | .ok (cp, nd) =>
    if !nd.isDir then .error Errno.ENOTDIR
    else if !nd.searchable then .error Errno.EACCES
    else .ok (cp, nd)

/-- The last element of a path. -/
def lastName (w : World) (p : GoString) : Option Name := (components (absPath w p)).getLast?

/-- The value of type `os.FileInfo`, as far as the package reads it. -/
structure FileInfo where
  IsDir : Bool
  Size : Int
deriving DecidableEq, Repr

/-- The function `os.Stat`: the pair `(info, err)`; `info` is `nil` (here
`none`) exactly when `err` is not. -/
def Stat (w : World) (p : GoString) : Option FileInfo × Option Errno :=
  match resolve w p with
  | .ok (_, n) => (some ⟨n.isDir, n.size⟩, none)
  | .error e => (none, some e)

/-- The function `os.IsNotExist`: on Unix only `ENOENT` counts. -/
def IsNotExist (err : Option Errno) : Bool := err == some Errno.ENOENT

/-- The entry `open` creates with mode 0666. -/
def newFile : Node := { isDir := false, size := 0, searchable := false, writable := true }

/-- The entry `mkdir` creates with mode 0755. -/
def newDir : Node := { isDir := true, size := 4096, searchable := true, writable := true }

/-- The call `os.OpenFile(p, os.O_CREATE|os.O_WRONLY, 0666)`: the error and
the file system afterwards. -/
def OpenFile (w : World) (p : GoString) : Option Errno × FS :=
  if p.isEmpty then (some Errno.ENOENT, w.fs)
  else
    match lastName w p with
    | none => (some Errno.EISDIR, w.fs)
    | some last =>
      match resolveParent w p with
      | .error e => (some e, w.fs)
      | .ok (cp, nd) =>
        if last = ['.'] || last = ['.', '.'] || p.getLast? = some '/' then
          (some Errno.EISDIR, w.fs)
        else
          match w.fs.lookup (cp ++ [last]) with
          | some n =>
            if n.isDir then (some Errno.EISDIR, w.fs)
            else if !n.writable then (some Errno.EACCES, w.fs)
            else (none, w.fs)
          | none =>
            if !nd.writable then (some Errno.EACCES, w.fs)
            else (none, w.fs ++ [(cp ++ [last], newFile)])

/-- Whether a directory holds an entry. -/
def FS.hasChild (fs : FS) (k : CPath) : Bool :=
  fs.any (fun e => !e.1.isEmpty && e.1.dropLast = k)

/-- Removal of every binding of a canonical path. -/
def FS.erase (fs : FS) (k : CPath) : FS := fs.filter (fun e => !(e.1 = k))

/-- The function `os.Remove`: `unlink`, then `rmdir` when that fails. -/
def Remove (w : World) (p : GoString) : Option Errno × FS :=
  if p.isEmpty then (some Errno.ENOENT, w.fs)
  else
    match lastName w p with
    | none => (some Errno.EBUSY, w.fs)
    | some last =>
      match resolveParent w p with
      | .error e => (some e, w.fs)
      | .ok (cp, nd) =>
        if last = ['.'] then (some Errno.EINVAL, w.fs)
        else if last = ['.', '.'] then (some Errno.ENOTEMPTY, w.fs)
        else
          match w.fs.lookup (cp ++ [last]) with
          | none => (some Errno.ENOENT, w.fs)
          | some n =>
            if !n.isDir && p.getLast? = some '/' then (some Errno.ENOTDIR, w.fs)
            else if n.isDir && w.fs.hasChild (cp ++ [last]) then (some Errno.ENOTEMPTY, w.fs)
            else if !nd.writable then (some Errno.EACCES, w.fs)
            else (none, w.fs.erase (cp ++ [last]))

/-- The function `os.Mkdir(p, 0755)`. -/
def Mkdir (w : World) (p : GoString) : Option Errno × FS :=
  if p.isEmpty then (some Errno.ENOENT, w.fs)
  else
    match lastName w p with
    | none => (some Errno.EEXIST, w.fs)
    | some last =>
      match resolveParent w p with
      | .error e => (some e, w.fs)
      | .ok (cp, nd) =>
        if last = ['.'] || last = ['.', '.'] then (some Errno.EEXIST, w.fs)
        else
          match w.fs.lookup (cp ++ [last]) with
          | some _ => (some Errno.EEXIST, w.fs)
          | none =>
            if !nd.writable then (some Errno.EACCES, w.fs)
            else (none, w.fs ++ [(cp ++ [last], newDir)])

/-- The parent `path[:i+1]` that `os.MkdirAll` extracts: trailing separators
are skipped, then the last element. -/
def mkdirAllParent (path : GoString) : GoString :=
  ((path.reverse.dropWhile IsPathSeparator).dropWhile (fun b => !IsPathSeparator b)).reverse

/-- The function `os.MkdirAll(path, 0755)`.  The recursion is on a strictly
shorter parent, so the fuel `len(path) + 1` is never exhausted (`none`). -/
def MkdirAll : Nat → World → GoString → Option (Option Errno × FS)
  | 0, _, _ => none
  | fuel + 1, w, path =>
    match Stat w path with
    | (some dir, none) =>
      -- fast path
      if dir.IsDir then some (none, w.fs) else some (some Errno.ENOTDIR, w.fs)
    | _ =>
      let parent := mkdirAllParent path
      match (if 0 < parent.length then MkdirAll fuel w parent else some (none, w.fs)) with
      | none => none
      | some (some e, fs1) => some (some e, fs1)
      | some (none, fs1) =>
        match Mkdir { w with fs := fs1 } path with
        | (none, fs2) => some (none, fs2)
        | (some e, fs2) =>
          match Stat { w with fs := fs2 } path with
          | (some dir, none) => if dir.IsDir then some (none, fs2) else some (some e, fs2)
          | _ => some (some e, fs2)

/-! ## Package `file` -/

/-- The errors the package returns. -/
inductive GoError
  | errno (e : Errno)
  | rootNotFound
deriving DecidableEq, Repr

/-- What a panic carries. -/
inductive PanicValue
  | nilDereference
  | error (e : GoError)
deriving DecidableEq, Repr

/-- The outcome of a call that may panic. -/
inductive Outcome (α : Type)
  | ret (a : α)
  | panic (v : PanicValue)
deriving DecidableEq, Repr

/-- The package state: `var rootPath string`. -/
structure Pkg where
  rootPath : GoString
deriving DecidableEq, Repr

/-- The marker suffix `"/etc"`. -/
def etcSuffix : GoString := ['/', 'e', 't', 'c']

/-- The marker suffix `"/data"`. -/
def dataSuffix : GoString := ['/', 'd', 'a', 't', 'a']

/-- The marker segment `"/etc/"`. -/
def etcSegment : GoString := ['/', 'e', 't', 'c', '/']

/-- The probe file suffix `"/.test"`. -/
def testSuffix : GoString := ['/', '.', 't', 'e', 's', 't']

/-- The function `Exists` of the package: true unless `os.Stat` reports a
not-exist error. -/
def Exists (w : World) (path : GoString) : Bool :=
  if IsNotExist (Stat w path).2 then false else true

/-- The function `IsExist` of the package.  `info.IsDir()` on a nil `info`
is a nil dereference. -/
def IsExist (w : World) (path : GoString) : Outcome Bool :=
  match Stat w path with
  | (info, err) =>
    if IsNotExist err then .ret false
    else
      match info with
      | none => .panic PanicValue.nilDereference
      | some i => .ret (!i.IsDir)

/-- The function `Size` of the package.  As in `IsExist`, `info.Size()` on a
nil `info` would be a nil dereference. -/
def Size (w : World) (path : GoString) : Outcome Int :=
  match Stat w path with
  | (info, err) =>
    if err != none then .ret 0
    else
      match info with
      | none => .panic PanicValue.nilDereference
      | some i => .ret i.Size

/-- The loop of `GetModRootPath`; `none` is an exhausted fuel. -/
def GetModRootPath.loop (w : World) : Nat → GoString → GoString → Option (GoString × Bool)
  | 0, _, _ => none
  | fuel + 1, path, prevPath =>
    if Exists w (path ++ etcSuffix) || Exists w (path ++ dataSuffix) then some (path, true)
    else if prevPath = path || path.length < 2 then some (path, false)
    else GetModRootPath.loop w fuel (Dir path) path

/-- The function `GetModRootPath`: the returned path, the error and the
package state afterwards.  The walk shortens the path at every step, so the
fuel `len(cwd) + 1` is never exhausted (`none`). -/
def GetModRootPath (w : World) (s : Pkg) : Option ((GoString × Option GoError) × Pkg) :=
  match GetModRootPath.loop w (w.cwd.length + 1) w.cwd [] with
  | none => none
  | some (path, true) => some ((path, none), { rootPath := path })
  | some (path, false) => some ((path, some GoError.rootNotFound), s)

/-- The function `GetRootPath`. -/
def GetRootPath (w : World) (s : Pkg) : Option (Outcome GoString × Pkg) :=
  if s.rootPath ≠ [] then some (.ret s.rootPath, s)
  else
    match GetModRootPath w s with
    | none => none
    | some ((_, some err), s1) => some (.panic (PanicValue.error err), s1)
    | some ((path, none), _) => some (.ret path, { rootPath := path })

/-- The function `GetCmdRootPath`.  `strings.Split` never returns an empty
slice, so the index `[0]` is in range. -/
def GetCmdRootPath (w : World) : GoString :=
  let dir := w.cwd
  if Contains dir etcSegment then (Split dir etcSegment).headD [] else dir

/-- The function `IsWritable`: the result and the world afterwards.  The
deferred function closes the file and removes the probe. -/
def IsWritable (w : World) (path : GoString) : Bool × World :=
  match OpenFile w (path ++ testSuffix) with
  | (some _, fs1) => (false, { w with fs := fs1 })
  | (none, fs1) => (true, { w with fs := (Remove { w with fs := fs1 } (path ++ testSuffix)).2 })

/-- The function `PreCreateDirectory`: the error and the world afterwards. -/
def PreCreateDirectory (w : World) (path : GoString) : Option (Option GoError × World) :=
  if Exists w path then some (none, w)
  else
    match MkdirAll (path.length + 1) w path with
    | none => none
    | some (err, fs1) => some (err.map GoError.errno, { w with fs := fs1 })


/-! ## The properties the specification states, and example worlds -/

/-- Whether an entry can be reached at a path: resolution succeeds. -/
def entryAt (w : World) (p : GoString) : Bool :=
  match resolve w p with
  | .ok _ => true
  | .error _ => false

/-- Whether a directory has a child entry named `etc` or `data`. -/
def hasMarkerChild (w : World) (d : GoString) : Bool :=
  entryAt w (d ++ etcSuffix) || entryAt w (d ++ dataSuffix)

/-- The test `GetModRootPath` makes on a candidate directory. -/
def marked (w : World) (d : GoString) : Bool :=
  Exists w (d ++ etcSuffix) || Exists w (d ++ dataSuffix)

/-- A directory entry with every permission. -/
def exDir : Node := { isDir := true, size := 4096, searchable := true, writable := true }

/-- An example file system: the directories `/etc`, `/d` (holding a file
`.test`), `/p`, `/p/etc`, `/q` (empty), the directory `/w` without search
permission, and the regular file `/f` of 11 bytes. -/
def exFS : FS :=
  [([], exDir),
   ([['e', 't', 'c']], exDir),
   ([['d']], exDir),
   ([['d'], ['.', 't', 'e', 's', 't']], newFile),
   ([['p']], exDir),
   ([['p'], ['e', 't', 'c']], exDir),
   ([['q']], exDir),
   ([['w']], { exDir with searchable := false }),
   ([['f']], { newFile with size := 11 })]

/-- The example file system with a working directory. -/
def exWorld (cwd : GoString) : World := { fs := exFS, cwd := cwd }

/-- The operations of the package, as calls a client makes. -/
inductive Call
  | GetModRootPath
  | GetRootPath
  | GetCmdRootPath
  | IsExist (path : GoString)
  | Size (path : GoString)
  | Exists (path : GoString)
  | IsWritable (path : GoString)
  | PreCreateDirectory (path : GoString)
deriving DecidableEq

/-- The effect of one call on the world and on the package state.  A panic
leaves both as they are, so a recovered panic is covered too. -/
def Call.exec (c : Call) (w : World) (s : Pkg) : World × Pkg :=
  match c with
  | .GetModRootPath =>
    match file.GetModRootPath w s with
    | some (_, s1) => (w, s1)
    | none => (w, s)
  | .GetRootPath =>
    match file.GetRootPath w s with
    | some (_, s1) => (w, s1)
    | none => (w, s)
  | .GetCmdRootPath => (w, s)
  | .IsExist _ => (w, s)
  | .Size _ => (w, s)
  | .Exists _ => (w, s)
  | .IsWritable p => ((file.IsWritable w p).2, s)
  | .PreCreateDirectory p =>
    match file.PreCreateDirectory w p with
    | some (_, w1) => (w1, s)
    | none => (w, s)

/-- One step of a client: the environment changes the world (working
directory and file system) in any way, then a call is made. -/
structure Step where
  env : World → World
  call : Call

/-- A sequence of calls. -/
def run (st : World × Pkg) (steps : List Step) : World × Pkg :=
  steps.foldl (fun st x => x.call.exec (x.env st.1) st.2) st

/-- The names of the entries of a directory. -/
def FS.entries (fs : FS) (k : CPath) : List Name :=
  (fs.filter (fun e => !e.1.isEmpty && e.1.dropLast = k)).filterMap (fun e => e.1.getLast?)

/-- The name `.test` of the probe file. -/
def testName : Name := ['.', 't', 'e', 's', 't']


/-! ## Facts about `filepath.Clean` and `filepath.Dir` -/

theorem cleanBacktrack_length (dotdot : Nat) : ∀ out : List Char,
    (cleanBacktrack dotdot out).length ≤ out.length - 1 := by
  intro out
  induction out with
  | nil => simp [cleanBacktrack]
  | cons x out ih =>
    unfold cleanBacktrack
    split
    · simp only [List.length_cons, Nat.add_sub_cancel]; omega
    · simp

theorem dropWhile_getLast {p : Char → Bool} {x : Char} (hx : p x = false) :
    ∀ l : List Char, l.getLast? = some x →
      l.dropWhile p ≠ [] ∧ (l.dropWhile p).getLast? = some x := by
  intro l
  induction l with
  | nil => simp
  | cons a l ih =>
    intro h
    by_cases hp : p a = true
    · rw [List.dropWhile_cons_of_pos hp]
      cases l with
      | nil => simp at h; subst h; simp [hx] at hp
      | cons b l => rw [List.getLast?_cons_cons] at h; exact ih h
    · rw [List.dropWhile_cons_of_neg hp]
      exact ⟨by simp, h⟩

theorem dropWhile_head (p : Char → Bool) :
    ∀ l : List Char, l.dropWhile p = [] ∨ ∃ a t, l.dropWhile p = a :: t ∧ p a = false := by
  intro l
  induction l with
  | nil => simp
  | cons a l ih =>
    by_cases hp : p a = true
    · rw [List.dropWhile_cons_of_pos hp]; exact ih
    · rw [List.dropWhile_cons_of_neg hp]; right; exact ⟨a, l, rfl, by simpa using hp⟩

theorem takeWhile_dropWhile_length (p : Char → Bool) (l : List Char) :
    (l.takeWhile p).length + (l.dropWhile p).length = l.length := by
  rw [← List.length_append, List.takeWhile_append_dropWhile]

theorem dropWhile_length_le (p : Char → Bool) (l : List Char) :
    (l.dropWhile p).length ≤ l.length := by
  have := takeWhile_dropWhile_length p l
  omega

/-- The length bound of the main loop of `Clean`: `d` is the slack `r - out.w`. -/
theorem cleanLoop_length (rooted : Bool) : ∀ (fuel : Nat) (rest out : List Char) (dotdot d : Nat),
    (0 < d ∨ out.length = (if rooted then 1 else 0) ∨ rest = [] ∨ rest.head? = some '/') →
    (cleanLoop rooted fuel rest out dotdot).length ≤ out.length + d + rest.length ∧
    (rest.getLast? = some '/' →
      (cleanLoop rooted fuel rest out dotdot).length < out.length + d + rest.length) := by
  intro fuel
  induction fuel with
  | zero =>
    intro rest out dotdot d _
    simp only [cleanLoop]
    refine ⟨by omega, ?_⟩
    intro h
    cases rest with
    | nil => simp at h
    | cons a t => simp only [List.length_cons]; omega
  | succ fuel ih =>
    intro rest out dotdot d hinv
    cases rest with
    | nil => simp [cleanLoop]
    | cons c rest =>
      simp only [cleanLoop]
      split
      · -- separator
        have h := ih rest out dotdot (d + 1) (Or.inl (by omega))
        refine ⟨by simp only [List.length_cons]; omega, ?_⟩
        intro hl
        cases rest with
        | nil =>
          have := h.1
          simp only [List.length_cons, List.length_nil] at this ⊢
          cases fuel <;> simp only [cleanLoop] at this ⊢ <;> omega
        | cons b t =>
          rw [List.getLast?_cons_cons] at hl
          have := h.2 hl
          simp only [List.length_cons] at this ⊢; omega
      · rename_i hsep
        split
        · -- dot element
          rename_i hdot
          have h := ih rest out dotdot (d + 1) (Or.inl (by omega))
          refine ⟨by simp only [List.length_cons]; omega, ?_⟩
          intro hl
          cases rest with
          | nil => simp [IsPathSeparator] at hl hsep; exact absurd hl hsep
          | cons b t =>
            rw [List.getLast?_cons_cons] at hl
            have := h.2 hl
            simp only [List.length_cons] at this ⊢; omega
        · rename_i hdot
          split
          · -- dotdot element
            rename_i hdd
            simp only [Bool.and_eq_true] at hdd
            obtain ⟨b, t, rfl⟩ : ∃ b t, rest = b :: t := by
              cases rest with
              | nil => simp at hdd
              | cons b t => exact ⟨b, t, rfl⟩
            have hb : b = '.' := by simpa using hdd.1.2
            have hlast : ∀ {n : Nat}, (c :: b :: t).getLast? = some '/' →
                t.getLast? = some '/' := by
              intro _ hl
              cases t with
              | nil => simp [hb] at hl
              | cons e t => simpa [List.getLast?_cons_cons] using hl
            simp only [List.tail_cons, List.length_cons]
            split
            · rename_i hlt
              have hbt := cleanBacktrack_length dotdot out
              have h := ih t (cleanBacktrack dotdot out) dotdot
                (d + 2 + (out.length - (cleanBacktrack dotdot out).length)) (Or.inl (by omega))
              refine ⟨by omega, ?_⟩
              intro hl
              have := h.2 (hlast (n := 0) hl)
              omega
            · split
              · rename_i hnr
                have hr : rooted = false := by simpa using hnr
                subst hr
                have hnext : t = [] ∨ t.head? = some '/' := by
                  have := hdd.2
                  cases t with
                  | nil => left; rfl
                  | cons e t =>
                    right
                    simpa [IsPathSeparator] using this
                by_cases hw : 0 < out.length
                · have hd : 0 < d := by
                    rcases hinv with h | h | h | h
                    · exact h
                    · simp only [Bool.false_eq_true, if_false] at h; omega
                    · simp at h
                    · simp at h; subst h; simp [IsPathSeparator] at hsep
                  have h := ih t ('.' :: '.' :: '/' :: out) ('.' :: '.' :: '/' :: out).length (d - 1)
                    (Or.inr (Or.inr hnext))
                  simp only [hw, if_true, List.length_cons] at h ⊢
                  refine ⟨by omega, ?_⟩
                  intro hl
                  have := h.2 (hlast (n := 0) hl)
                  omega
                · have h := ih t ('.' :: '.' :: out) ('.' :: '.' :: out).length d
                    (Or.inr (Or.inr hnext))
                  simp only [hw, if_false, List.length_cons] at h ⊢
                  refine ⟨by omega, ?_⟩
                  intro hl
                  have := h.2 (hlast (n := 0) hl)
                  omega
              · have h := ih t out dotdot (d + 2) (Or.inl (by omega))
                refine ⟨by omega, ?_⟩
                intro hl
                have := h.2 (hlast (n := 0) hl)
                omega
          · -- real element
            have hc : IsPathSeparator c = false := by simpa using hsep
            have hlen := takeWhile_dropWhile_length (fun b => !IsPathSeparator b) (c :: rest)
            rw [List.length_cons] at hlen
            have hnext : (c :: rest).dropWhile (fun b => !IsPathSeparator b) = [] ∨
                ((c :: rest).dropWhile (fun b => !IsPathSeparator b)).head? = some '/' := by
              rcases dropWhile_head (fun b => !IsPathSeparator b) (c :: rest) with h | ⟨a, t, h, ha⟩
              · left; exact h
              · right; rw [h]; simp [IsPathSeparator] at ha; simp [ha]
            have hd : out.length ≠ (if rooted then 1 else 0) → 0 < d := by
              intro hne
              rcases hinv with h | h | h | h
              · exact h
              · exact absurd h hne
              · simp at h
              · simp at h; subst h; simp [IsPathSeparator] at hc
            have hstrict : (c :: rest).getLast? = some '/' →
                ((c :: rest).dropWhile (fun b => !IsPathSeparator b)).getLast? = some '/' := by
              intro hl
              exact (dropWhile_getLast (p := fun b => !IsPathSeparator b) (by simp [IsPathSeparator])
                (c :: rest) hl).2
            by_cases hw : out.length = (if rooted then 1 else 0)
            · have hcond : ((rooted && out.length != 1) || (!rooted && out.length != 0)) = false := by
                cases rooted <;> simp_all
              have h := ih ((c :: rest).dropWhile (fun b => !IsPathSeparator b))
                (((c :: rest).takeWhile (fun b => !IsPathSeparator b)).reverse ++ out) dotdot d
                (Or.inr (Or.inr hnext))
              simp only [hcond, List.length_append, List.length_reverse] at h ⊢
              simp only [Bool.false_eq_true, if_false, List.length_append, List.length_reverse,
                List.length_cons]
              refine ⟨by omega, ?_⟩
              intro hl
              have := h.2 (hstrict hl)
              omega
            · have hcond : ((rooted && out.length != 1) || (!rooted && out.length != 0)) = true := by
                cases rooted <;> simp_all
              have hd := hd hw
              have h := ih ((c :: rest).dropWhile (fun b => !IsPathSeparator b))
                (((c :: rest).takeWhile (fun b => !IsPathSeparator b)).reverse ++ '/' :: out)
                dotdot (d - 1) (Or.inr (Or.inr hnext))
              simp only [hcond, if_true, List.length_append, List.length_reverse,
                List.length_cons] at h ⊢
              refine ⟨by omega, ?_⟩
              intro hl
              have := h.2 (hstrict hl)
              omega

theorem Clean_rooted (c : Char) (rest : List Char) (h : IsPathSeparator c = true) :
    Clean (c :: rest) =
      if (cleanLoop true (c :: rest).length rest ['/'] 1).isEmpty then ['.']
      else (cleanLoop true (c :: rest).length rest ['/'] 1).reverse := by
  simp only [Clean, h, ↓reduceIte]

theorem Clean_unrooted (c : Char) (rest : List Char) (h : IsPathSeparator c = false) :
    Clean (c :: rest) =
      if (cleanLoop false (c :: rest).length (c :: rest) [] 0).isEmpty then ['.']
      else (cleanLoop false (c :: rest).length (c :: rest) [] 0).reverse := by
  simp only [Clean, h, Bool.false_eq_true, ↓reduceIte]

theorem Clean_length_le (s : GoString) (hs : s ≠ []) : (Clean s).length ≤ s.length := by
  cases s with
  | nil => exact absurd rfl hs
  | cons c rest =>
    cases hr : IsPathSeparator c
    · have := (cleanLoop_length false (c :: rest).length (c :: rest) [] 0 0
        (Or.inr (Or.inl rfl))).1
      rw [Clean_unrooted c rest hr]
      split
      · simp
      · rw [List.length_reverse]; simpa using this
    · have := (cleanLoop_length true (c :: rest).length rest ['/'] 1 0 (Or.inr (Or.inl rfl))).1
      rw [Clean_rooted c rest hr]
      split
      · simp
      · rw [List.length_reverse]; simpa [Nat.add_comm] using this

theorem Clean_length_lt (s : GoString) (hlen : 2 ≤ s.length) (hlast : s.getLast? = some '/') :
    (Clean s).length < s.length := by
  cases s with
  | nil => simp at hlen
  | cons c rest =>
    cases hr : IsPathSeparator c
    · rw [Clean_unrooted c rest hr]
      split
      · simpa using hlen
      · have := (cleanLoop_length false (c :: rest).length (c :: rest) [] 0 0
          (Or.inr (Or.inl rfl))).2 hlast
        rw [List.length_reverse]; simpa using this
    · rw [Clean_rooted c rest hr]
      split
      · simpa using hlen
      · cases rest with
        | nil => simp at hlen
        | cons b t =>
          rw [List.getLast?_cons_cons] at hlast
          have := (cleanLoop_length true (c :: b :: t).length (b :: t) ['/'] 1 0
            (Or.inr (Or.inl rfl))).2 hlast
          rw [List.length_reverse]; simpa [Nat.add_comm] using this

theorem dirPrefix_length_le (p : GoString) : (dirPrefix p).length ≤ p.length := by
  unfold dirPrefix
  rw [List.length_reverse]
  have := takeWhile_dropWhile_length (fun b => !IsPathSeparator b) p.reverse
  rw [List.length_reverse] at this
  omega

theorem dirPrefix_last (p : GoString) :
    dirPrefix p = [] ∨ (dirPrefix p).getLast? = some '/' := by
  unfold dirPrefix
  rcases dropWhile_head (fun b => !IsPathSeparator b) p.reverse with h | ⟨a, t, h, ha⟩
  · left; rw [h]; rfl
  · right
    rw [List.getLast?_reverse, h]
    simp [IsPathSeparator] at ha
    simp [ha]

/-- Every step of the upward walk shortens a path of two or more bytes. -/
theorem Dir_length_lt (p : GoString) (hp : 2 ≤ p.length) : (Dir p).length < p.length := by
  unfold Dir
  have hle := dirPrefix_length_le p
  rcases dirPrefix_last p with h | h
  · rw [h]; simp [Clean]; omega
  · by_cases h2 : 2 ≤ (dirPrefix p).length
    · have := Clean_length_lt _ h2 h
      omega
    · have hne : dirPrefix p ≠ [] := by intro h0; rw [h0] at h; simp at h
      have h1 := Clean_length_le _ hne
      have : 0 < (dirPrefix p).length := List.length_pos.mpr hne
      omega

theorem cleanBacktrack_last : ∀ out : List Char, 1 < out.length →
    cleanBacktrack 1 out ≠ [] ∧ (cleanBacktrack 1 out).getLast? = out.getLast? := by
  intro out
  induction out with
  | nil => simp
  | cons x out ih =>
    intro h
    have hne : out ≠ [] := by
      intro h0; subst h0; simp at h
    obtain ⟨y, t, rfl⟩ : ∃ y t, out = y :: t := by
      cases out with
      | nil => exact absurd rfl hne
      | cons y t => exact ⟨y, t, rfl⟩
    unfold cleanBacktrack
    split
    · rename_i hc
      simp only [Bool.and_eq_true, decide_eq_true_eq] at hc
      have := ih hc.1
      exact ⟨this.1, by rw [this.2, List.getLast?_cons_cons]⟩
    · exact ⟨by simp, by rw [List.getLast?_cons_cons]⟩

theorem getLast?_append_ne (l₁ l₂ : List Char) (h : l₂ ≠ []) :
    (l₁ ++ l₂).getLast? = l₂.getLast? := by
  induction l₁ with
  | nil => rfl
  | cons a l ih =>
    cases hl : l ++ l₂ with
    | nil => simp at hl; exact absurd hl.2 h
    | cons b t => rw [List.cons_append, hl, List.getLast?_cons_cons, ← hl, ih]

/-- On a rooted path the output buffer of `Clean` keeps its leading separator. -/
theorem cleanLoop_rooted : ∀ (fuel : Nat) (rest out : List Char),
    out ≠ [] → out.getLast? = some '/' →
    cleanLoop true fuel rest out 1 ≠ [] ∧ (cleanLoop true fuel rest out 1).getLast? = some '/' := by
  intro fuel
  induction fuel with
  | zero => intro rest out h1 h2; simp only [cleanLoop]; exact ⟨h1, h2⟩
  | succ fuel ih =>
    intro rest out h1 h2
    cases rest with
    | nil => simp only [cleanLoop]; exact ⟨h1, h2⟩
    | cons c rest =>
      simp only [cleanLoop]
      split
      · exact ih rest out h1 h2
      · split
        · exact ih rest out h1 h2
        · split
          · split
            · rename_i hlt
              have := cleanBacktrack_last out hlt
              exact ih _ _ this.1 (by rw [this.2]; exact h2)
            · simp only [Bool.not_true, Bool.false_eq_true, if_false]
              exact ih _ _ h1 h2
          · apply ih
            · simp
              intro _
              split <;> simp [h1]
            · rw [getLast?_append_ne]
              · split
                · cases out with
                  | nil => exact absurd rfl h1
                  | cons y t => rw [List.getLast?_cons_cons]; exact h2
                · exact h2
              · split <;> simp [h1]

theorem Clean_abs (s : GoString) (h : s.head? = some '/') : (Clean s).head? = some '/' := by
  cases s with
  | nil => simp at h
  | cons c rest =>
    have hc : c = '/' := by simpa using h
    subst hc
    rw [Clean_rooted _ _ (by rfl)]
    have := cleanLoop_rooted ('/' :: rest).length rest ['/'] (by simp) (by rfl)
    split
    · rename_i he
      simp at he
      exact absurd he this.1
    · rw [List.head?_reverse]; exact this.2

theorem dropWhile_append_stop {p : Char → Bool} {x : Char} (hx : p x = false) :
    ∀ l : List Char, (l ++ [x]).dropWhile p = l.dropWhile p ++ [x] := by
  intro l
  induction l with
  | nil => simp [List.dropWhile, hx]
  | cons a l ih =>
    by_cases hp : p a = true
    · rw [List.cons_append, List.dropWhile_cons_of_pos hp, List.dropWhile_cons_of_pos hp, ih]
    · rw [List.cons_append, List.dropWhile_cons_of_neg hp, List.dropWhile_cons_of_neg hp]
      rfl

theorem dirPrefix_abs (p : GoString) (h : p.head? = some '/') :
    (dirPrefix p).head? = some '/' := by
  cases p with
  | nil => simp at h
  | cons c t =>
    have hc : c = '/' := by simpa using h
    subst hc
    unfold dirPrefix
    rw [List.reverse_cons, dropWhile_append_stop (by rfl)]
    simp

/-- The parent of an absolute path is absolute. -/
theorem Dir_abs (p : GoString) (h : p.head? = some '/') : (Dir p).head? = some '/' :=
  Clean_abs _ (dirPrefix_abs p h)



/-! ## Facts about `strings.Index` and `strings.Split` -/

theorem HasPrefix_iff_take : ∀ s sep : GoString,
    HasPrefix s sep = true ↔ s.take sep.length = sep := by
  intro s sep
  induction sep generalizing s with
  | nil => simp [HasPrefix]
  | cons b p ih =>
    cases s with
    | nil => simp [HasPrefix]
    | cons a s =>
      simp only [HasPrefix, Bool.and_eq_true, beq_iff_eq, List.length_cons, List.take_succ_cons,
        List.cons.injEq, ih]

theorem Index_some_split : ∀ (s sep : GoString) (m : Nat), Index s sep = some m →
    s = s.take m ++ sep ++ s.drop (m + sep.length) := by
  intro s sep
  induction s with
  | nil =>
    intro m h
    simp only [Index] at h
    split at h
    · rename_i he
      have : sep = [] := by simpa using he
      subst this; simp
    · simp at h
  | cons c s ih =>
    intro m h
    simp only [Index] at h
    split at h
    · rename_i hp
      have hm : m = 0 := by simpa using h.symm
      subst hm
      have := (HasPrefix_iff_take _ _).mp hp
      simp only [List.take_zero, List.nil_append, Nat.zero_add]
      conv_lhs => rw [← List.take_append_drop sep.length (c :: s), this]
    · cases hi : Index s sep with
      | none => simp [hi] at h
      | some i =>
        simp only [hi, Option.map_some', Option.some.injEq] at h
        subst h
        have := ih i hi
        simp only [List.take_succ_cons, List.cons_append]
        rw [show i + 1 + sep.length = (i + sep.length) + 1 by omega, List.drop_succ_cons]
        exact congrArg (List.cons c) this

theorem Index_append_segment (P rest : GoString)
    (h : ∀ a b : GoString, P ++ etcSuffix ≠ a ++ etcSegment ++ b) :
    Index (P ++ etcSegment ++ rest) etcSegment = some P.length := by
  induction P with
  | nil =>
    have : HasPrefix ([] ++ etcSegment ++ rest) etcSegment = true := by
      rw [HasPrefix_iff_take]; simp [etcSegment]
    simp only [List.nil_append] at this
    simp [etcSegment, Index] at this ⊢
    simp [HasPrefix]
  | cons c P ih =>
    have hP : ∀ a b : GoString, P ++ etcSuffix ≠ a ++ etcSegment ++ b := by
      intro a b hab
      exact h (c :: a) b (by simp [hab])
    have hnp : HasPrefix (c :: P ++ etcSegment ++ rest) etcSegment = false := by
      cases hp : HasPrefix (c :: P ++ etcSegment ++ rest) etcSegment with
      | false => rfl
      | true =>
        exfalso
        rw [HasPrefix_iff_take] at hp
        have hsplit : c :: P ++ etcSegment ++ rest = (c :: P ++ etcSuffix) ++ ('/' :: rest) := by
          simp [etcSegment, etcSuffix]
        rw [hsplit, List.take_append_of_le_length (by simp [etcSegment, etcSuffix])] at hp
        apply h [] (List.drop etcSegment.length (c :: P ++ etcSuffix))
        conv_lhs => rw [← List.take_append_drop etcSegment.length (c :: P ++ etcSuffix), hp]
        simp
    simp only [List.cons_append, List.append_assoc] at hnp ⊢
    simp only [Index, hnp, Bool.false_eq_true, if_false]
    have := ih hP
    simp only [List.append_assoc] at this
    rw [this]; simp

theorem Split_head (s sep : GoString) (m : Nat) (hsep : sep ≠ []) (h : Index s sep = some m) :
    (Split s sep).headD [] = s.take m := by
  have hs : s ≠ [] := by
    intro h0; subst h0
    simp only [Index] at h
    split at h
    · rename_i he; exact hsep (by simpa using he)
    · simp at h
  obtain ⟨n, hn⟩ : ∃ n, s.length = n + 1 := by
    cases s with
    | nil => exact absurd rfl hs
    | cons a t => exact ⟨t.length, rfl⟩
  have he : sep.isEmpty = false := by
    cases sep with
    | nil => exact absurd rfl hsep
    | cons a t => rfl
  simp only [Split, he, Bool.false_eq_true, if_false, hn, splitLoop, h, List.headD_cons]

/-- The slice `strings.Split` returns is never empty. -/
theorem Split_ne_nil (s sep : GoString) (hsep : sep ≠ []) : Split s sep ≠ [] := by
  have he : sep.isEmpty = false := by
    cases sep with
    | nil => exact absurd rfl hsep
    | cons a t => rfl
  simp only [Split, he, Bool.false_eq_true, if_false]
  cases s.length with
  | zero => simp [splitLoop]
  | succ n =>
    simp only [splitLoop]
    split <;> simp


/-! ## The fuel of the loops is never exhausted -/

/-- The loop of `Clean` does not depend on its fuel once the fuel covers the
bytes left to read. -/
theorem cleanLoop_fuel (rooted : Bool) : ∀ (fuel : Nat) (rest out : List Char) (dotdot : Nat),
    rest.length ≤ fuel →
    cleanLoop rooted (fuel + 1) rest out dotdot = cleanLoop rooted fuel rest out dotdot := by
  intro fuel
  induction fuel with
  | zero =>
    intro rest out dotdot h
    have : rest = [] := List.length_eq_zero.mp (by omega)
    subst this
    simp [cleanLoop]
  | succ fuel ih =>
    intro rest out dotdot h
    cases rest with
    | nil => simp [cleanLoop]
    | cons c rest =>
      have hlen : rest.length ≤ fuel := by simpa using h
      have htail : rest.tail.length ≤ fuel := by
        have := List.length_tail rest; omega
      rw [cleanLoop, cleanLoop]
      by_cases hsep : IsPathSeparator c = true
      · simp only [hsep, if_true]
        exact ih _ _ _ hlen
      · have hdrop : ((c :: rest).dropWhile (fun b => !IsPathSeparator b)).length ≤ fuel := by
          rw [List.dropWhile_cons_of_pos (by simpa using hsep)]
          have := dropWhile_length_le (fun b => !IsPathSeparator b) rest
          omega
        simp only [hsep, if_false]
        repeat' split
        all_goals first
          | exact ih _ _ _ hlen
          | exact ih _ _ _ htail
          | exact ih _ _ _ hdrop

/-- With any fuel that covers the bytes left to read the loop of `Clean`
computes the same output. -/
theorem cleanLoop_fuel_le (rooted : Bool) (rest out : List Char) (dotdot : Nat) :
    ∀ fuel, rest.length ≤ fuel →
    cleanLoop rooted fuel rest out dotdot = cleanLoop rooted rest.length rest out dotdot := by
  intro fuel h
  induction fuel with
  | zero =>
    have : rest.length = 0 := by omega
    rw [this]
  | succ fuel ih =>
    by_cases hf : rest.length ≤ fuel
    · rw [cleanLoop_fuel rooted fuel rest out dotdot hf]; exact ih hf
    · have : rest.length = fuel + 1 := by omega
      rw [this]

theorem Index_lt_length (s sep : GoString) (m : Nat) (hsep : sep ≠ []) (h : Index s sep = some m) :
    m + sep.length ≤ s.length := by
  have := congrArg List.length (Index_some_split s sep m h)
  have hpos : 0 < sep.length := List.length_pos.mpr hsep
  simp only [List.length_append, List.length_take, List.length_drop] at this
  rcases Nat.le_total m s.length with hm | hm
  · rw [Nat.min_eq_left hm] at this; omega
  · rw [Nat.min_eq_right hm] at this; omega

/-- The loop of `strings.Split` does not depend on its fuel once the fuel
covers the bytes left to split. -/
theorem splitLoop_fuel (sep : GoString) (hsep : sep ≠ []) : ∀ (fuel : Nat) (s : GoString),
    s.length ≤ fuel → splitLoop (fuel + 1) s sep = splitLoop fuel s sep := by
  intro fuel
  induction fuel with
  | zero =>
    intro s h
    have : s = [] := List.length_eq_zero.mp (by omega)
    subst this
    have he : sep.isEmpty = false := by
      cases sep with
      | nil => exact absurd rfl hsep
      | cons a t => rfl
    simp [splitLoop, Index, he]
  | succ fuel ih =>
    intro s h
    rw [splitLoop, splitLoop]
    cases hi : Index s sep with
    | none => rfl
    | some m =>
      simp only []
      have hm := Index_lt_length s sep m hsep hi
      have hpos : 0 < sep.length := List.length_pos.mpr hsep
      rw [ih _ (by rw [List.length_drop]; omega)]


/-! ## The probes `Exists`, `IsExist` and `Size` -/

set_option maxRecDepth 100000

/-- What `Exists` answers, by the outcome of `os.Stat`. -/
theorem Exists_eq (w : World) (p : GoString) :
    Exists w p = !((Stat w p).2 == some Errno.ENOENT) := by
  unfold Exists IsNotExist
  cases (Stat w p).2 == some Errno.ENOENT <;> rfl

/-- The function `os.Stat` returns an info exactly when it returns no error. -/
theorem Stat_cases (w : World) (p : GoString) :
    (∃ i, Stat w p = (some i, none)) ∨ (∃ e, Stat w p = (none, some e)) := by
  unfold Stat
  cases resolve w p with
  | error e => right; exact ⟨e, rfl⟩
  | ok r => left; exact ⟨_, rfl⟩

/-- When `os.Stat` reports a not-exist error the three probes answer
false, false and 0. -/
theorem probes_of_notExist (w : World) (X : GoString)
    (h : Stat w X = (none, some Errno.ENOENT)) :
    Exists w X = false ∧ IsExist w X = .ret false ∧ Size w X = .ret 0 := by
  simp [Exists, IsExist, Size, h, IsNotExist]

/-- The function `IsExist` panics exactly when `os.Stat` fails with an error
other than not-exist. -/
theorem IsExist_panics_iff (w : World) (p : GoString) :
    (∃ v, IsExist w p = .panic v) ↔ ∃ e, (Stat w p).2 = some e ∧ e ≠ Errno.ENOENT := by
  rcases Stat_cases w p with ⟨i, h⟩ | ⟨e, h⟩
  · simp [IsExist, h, IsNotExist]
  · by_cases he : e = Errno.ENOENT
    · subst he; simp [IsExist, h, IsNotExist]
    · simp [IsExist, h, IsNotExist, he]

/-- The function `Size` never panics: it returns the size `os.Stat` reports,
or 0 when `os.Stat` fails. -/
theorem Size_returns (w : World) (p : GoString) : ∃ n, Size w p = .ret n := by
  rcases Stat_cases w p with ⟨i, h⟩ | ⟨e, h⟩
  · exact ⟨i.Size, by simp [Size, h]⟩
  · exact ⟨0, by simp [Size, h]⟩

/-- Claim C3, at the failing input: the path `/f/x` below the regular file
`/f`.  `os.Stat` fails with `ENOTDIR`, which `os.IsNotExist` does not
recognise; `Exists` and `Size` still return a value (true and 0), but
`IsExist` calls `IsDir` on the nil info and panics. -/
theorem IsExist_panics_below_file :
    Stat (exWorld ['/']) ['/', 'f', '/', 'x'] = (none, some Errno.ENOTDIR) ∧
    Exists (exWorld ['/']) ['/', 'f', '/', 'x'] = true ∧
    Size (exWorld ['/']) ['/', 'f', '/', 'x'] = .ret 0 ∧
    IsExist (exWorld ['/']) ['/', 'f', '/', 'x'] = .panic PanicValue.nilDereference := by
  decide

/-- Claim C4: where `os.Stat` succeeds and reports a non-directory, `Exists`
and `IsExist` are both true; where it succeeds and reports a directory,
`Exists` is true and `IsExist` is false. -/
theorem Exists_IsExist_of_entry (w : World) (P : GoString) (info : FileInfo)
    (h : Stat w P = (some info, none)) :
    (info.IsDir = false → Exists w P = true ∧ IsExist w P = .ret true) ∧
    (info.IsDir = true → Exists w P = true ∧ IsExist w P = .ret false) := by
  constructor <;> intro hd <;> simp [Exists, IsExist, h, IsNotExist, hd]

/-- Claim C4, witness: the regular file `/f` and the directory `/d`. -/
theorem Exists_IsExist_of_entry_witness :
    (Exists (exWorld ['/']) ['/', 'f'] = true ∧ IsExist (exWorld ['/']) ['/', 'f'] = .ret true) ∧
    (Exists (exWorld ['/']) ['/', 'd'] = true ∧ IsExist (exWorld ['/']) ['/', 'd'] = .ret false) :=
  ⟨(Exists_IsExist_of_entry (exWorld ['/']) ['/', 'f'] ⟨false, 11⟩ (by decide)).1 rfl,
   (Exists_IsExist_of_entry (exWorld ['/']) ['/', 'd'] ⟨true, 4096⟩ (by decide)).2 rfl⟩

/-- Claim C5, at the failing input: no entry exists at `/f/x` (the table has
none, resolution fails), yet `Exists` answers true and `IsExist` panics;
only `Size` is 0 as claimed. -/
theorem probes_below_file :
    exFS.lookup [['f'], ['x']] = none ∧
    entryAt (exWorld ['/']) ['/', 'f', '/', 'x'] = false ∧
    Exists (exWorld ['/']) ['/', 'f', '/', 'x'] = true ∧
    IsExist (exWorld ['/']) ['/', 'f', '/', 'x'] = .panic PanicValue.nilDereference ∧
    Size (exWorld ['/']) ['/', 'f', '/', 'x'] = .ret 0 := by
  decide

/-! ## `GetCmdRootPath` -/

/-- Claim C10, at the failing input: from the working directory `/etc/nginx`
the function returns the empty string. -/
theorem GetCmdRootPath_empty :
    (['/', 'e', 't', 'c', '/', 'n', 'g', 'i', 'n', 'x'] : GoString) ≠ [] ∧
    (['/', 'e', 't', 'c', '/', 'n', 'g', 'i', 'n', 'x'] : GoString).head? = some '/' ∧
    GetCmdRootPath (exWorld ['/', 'e', 't', 'c', '/', 'n', 'g', 'i', 'n', 'x']) = [] := by
  decide

/-- What `GetCmdRootPath` computes: the working directory up to its first
`/etc/` segment. -/
theorem GetCmdRootPath_eq (w : World) :
    GetCmdRootPath w =
      match Index w.cwd etcSegment with
      | some m => w.cwd.take m
      | none => w.cwd := by
  have key : ∀ o : Option Nat, Index w.cwd etcSegment = o →
      GetCmdRootPath w = match o with
        | some m => w.cwd.take m
        | none => w.cwd := by
    intro o ho
    cases o with
    | none => simp [GetCmdRootPath, Contains, ho]
    | some m =>
      simp only [GetCmdRootPath, Contains, ho, Option.isSome_some, if_true]
      exact Split_head _ _ m (by simp [etcSegment]) ho
  exact key _ rfl

/-- Claim C9, as stated, fails: from the marker directory `/p/etc` itself the
function returns `/p/etc`, not the project directory `/p`; and for the
project directory `/etc/x` it returns the empty string from `/etc/x/etc/y`. -/
theorem GetCmdRootPath_not_parent :
    GetCmdRootPath (exWorld (['/', 'p'] ++ etcSuffix)) = ['/', 'p', '/', 'e', 't', 'c'] ∧
    GetCmdRootPath (exWorld (['/', 'p'] ++ etcSuffix)) ≠ ['/', 'p'] ∧
    GetCmdRootPath (exWorld (['/', 'e', 't', 'c', '/', 'x'] ++ etcSegment ++ ['y'])) = [] ∧
    GetCmdRootPath (exWorld (['/', 'e', 't', 'c', '/', 'x'] ++ etcSegment ++ ['y'])) ≠
      ['/', 'e', 't', 'c', '/', 'x'] := by
  decide

/-- Claim C9, amended: for an absolute project directory `P` such that
`P ++ "/etc"` holds no `/etc/` segment, when the working directory is
`P ++ "/etc/" ++ rest` the function returns `P`; and a working directory that
neither holds an `/etc/` segment nor ends in `/etc` is returned unchanged. -/
theorem GetCmdRootPath_marker (w : World) (P rest : GoString) :
    (P.head? = some '/' → w.cwd = P ++ etcSegment ++ rest →
      (∀ a b : GoString, P ++ etcSuffix ≠ a ++ etcSegment ++ b) → GetCmdRootPath w = P) ∧
    ((∀ a b : GoString, w.cwd ≠ a ++ etcSegment ++ b) → (∀ a : GoString, w.cwd ≠ a ++ etcSuffix) →
      GetCmdRootPath w = w.cwd) := by
  constructor
  · intro _ hw hP
    rw [GetCmdRootPath_eq, hw, Index_append_segment P rest hP]
    simp
  · intro h _
    rw [GetCmdRootPath_eq]
    cases hi : Index w.cwd etcSegment with
    | none => rfl
    | some m => exact absurd (Index_some_split _ _ m hi) (h _ _)

theorem no_segment_of_short (s : GoString) (hs : s.length < 5) (a b : GoString) :
    s ≠ a ++ etcSegment ++ b := by
  intro h
  have := congrArg List.length h
  simp [etcSegment] at this
  omega

/-- Claim C9, amended, witness: from `/p/etc/x` the function returns `/p`,
and `/q` is returned unchanged. -/
theorem GetCmdRootPath_marker_witness :
    GetCmdRootPath (exWorld (['/', 'p'] ++ etcSegment ++ ['x'])) = ['/', 'p'] ∧
    GetCmdRootPath (exWorld ['/', 'q']) = ['/', 'q'] :=
  ⟨(GetCmdRootPath_marker (exWorld (['/', 'p'] ++ etcSegment ++ ['x'])) ['/', 'p'] ['x']).1 rfl rfl
      (by
        intro a b h
        have hl := congrArg List.length h
        simp [etcSegment, etcSuffix] at hl
        have ha : a.length + b.length = 1 := by omega
        rcases a with _ | ⟨a0, _ | ⟨a1, t⟩⟩
        · simp [etcSegment, etcSuffix] at h
        · simp [etcSegment, etcSuffix] at h
        · simp at ha; omega),
   (GetCmdRootPath_marker (exWorld ['/', 'q']) [] []).2
      (no_segment_of_short _ (by decide))
      (by
        intro a h
        have hl := congrArg List.length h
        simp [etcSuffix, exWorld] at hl)⟩


/-! ## `GetModRootPath` and `GetRootPath` -/

/-- The loop of `GetModRootPath` returns: a fuel above the length of the
path is never exhausted. -/
theorem loop_isSome (w : World) : ∀ (fuel : Nat) (path prevPath : GoString),
    path.length < fuel → ∃ r, GetModRootPath.loop w fuel path prevPath = some r := by
  intro fuel
  induction fuel with
  | zero => intro path _ h; omega
  | succ fuel ih =>
    intro path prevPath h
    simp only [GetModRootPath.loop]
    split
    · exact ⟨_, rfl⟩
    · split
      · exact ⟨_, rfl⟩
      · rename_i hb
        simp only [Bool.or_eq_true, decide_eq_true_eq, not_or, not_lt] at hb
        have := Dir_length_lt path hb.2
        exact ih _ _ (by omega)

/-- The function `GetModRootPath` returns for every working directory. -/
theorem GetModRootPath_total (w : World) (s : Pkg) :
    ∃ p e s1, GetModRootPath w s = some ((p, e), s1) := by
  obtain ⟨⟨p, b⟩, h⟩ := loop_isSome w (w.cwd.length + 1) w.cwd [] (by omega)
  cases b with
  | true => exact ⟨p, none, ⟨p⟩, by simp [GetModRootPath, h]⟩
  | false => exact ⟨p, some GoError.rootNotFound, s, by simp [GetModRootPath, h]⟩

theorem abs_short (p : GoString) (h : p.head? = some '/') (hl : p.length < 2) : p = ['/'] := by
  cases p with
  | nil => simp at h
  | cons c t =>
    cases t with
    | nil => simp at h; rw [h]
    | cons d t => simp only [List.length_cons] at hl; omega

theorem Dir_root_iterate (k : Nat) : Dir^[k] (['/'] : GoString) = ['/'] :=
  Function.iterate_fixed (by decide) k

/-- The walk of `GetModRootPath` from an absolute path: it stops at the first
directory of the chain `path, Dir path, ...` that passes the test `marked`,
or at the root when none does. -/
theorem loop_walk (w : World) : ∀ (fuel : Nat) (path prevPath : GoString),
    path.head? = some '/' → prevPath ≠ path → path.length < fuel →
    ∃ k, (∀ j, j < k → marked w (Dir^[j] path) = false) ∧
      ((marked w (Dir^[k] path) = true ∧
          GetModRootPath.loop w fuel path prevPath = some (Dir^[k] path, true)) ∨
       (marked w (Dir^[k] path) = false ∧ Dir^[k] path = ['/'] ∧
          GetModRootPath.loop w fuel path prevPath = some (['/'], false))) := by
  intro fuel
  induction fuel with
  | zero => intro path _ _ _ h; omega
  | succ fuel ih =>
    intro path prevPath habs hprev hlen
    simp only [GetModRootPath.loop]
    by_cases hm : marked w path = true
    · refine ⟨0, by intro j hj; omega, Or.inl ⟨hm, ?_⟩⟩
      have hm' := hm
      unfold marked at hm'
      simp only [Function.iterate_zero, id_eq, hm', if_true]
    · have hm0 : marked w path = false := by simpa using hm
      have hm' := hm0
      unfold marked at hm'
      simp only [hm', Bool.false_eq_true, if_false]
      by_cases h2 : path.length < 2
      · have hroot := abs_short path habs h2
        refine ⟨0, by intro j hj; omega, Or.inr ⟨hm0, hroot, ?_⟩⟩
        simp [h2, hroot]
      · have hlt := Dir_length_lt path (by omega)
        have hne : path ≠ Dir path := by
          intro h; rw [← h] at hlt; omega
        obtain ⟨k, hk, hres⟩ := ih (Dir path) path (Dir_abs path habs) hne (by omega)
        have hcond : (decide (prevPath = path) || decide (path.length < 2)) = false := by
          simp [hprev, h2]
        simp only [hcond, Bool.false_eq_true, if_false]
        refine ⟨k + 1, ?_, ?_⟩
        · intro j hj
          cases j with
          | zero => exact hm0
          | succ j => rw [Function.iterate_succ_apply]; exact hk j (by omega)
        · rw [Function.iterate_succ_apply]; exact hres

/-- What `GetModRootPath` does from an absolute working directory: it
returns, its error is nil exactly when some directory of the chain
`cwd, Dir cwd, ...` passes the test `marked` (`Exists` on the child `etc` or
`data`), and the path it then returns is the first such directory. -/
theorem GetModRootPath_walk (w : World) (s : Pkg) (habs : w.cwd.head? = some '/') :
    ∃ p e s1, GetModRootPath w s = some ((p, e), s1) ∧
      (e = none ↔ ∃ k, marked w (Dir^[k] w.cwd) = true) ∧
      (e = none → ∃ k, p = Dir^[k] w.cwd ∧ marked w p = true ∧
        ∀ j, j < k → marked w (Dir^[j] w.cwd) = false) := by
  have hne : ([] : GoString) ≠ w.cwd := by
    intro h; rw [← h] at habs; simp at habs
  obtain ⟨k, hk, hres⟩ := loop_walk w (w.cwd.length + 1) w.cwd [] habs hne (by omega)
  rcases hres with ⟨hm, hl⟩ | ⟨hm, hroot, hl⟩
  · refine ⟨Dir^[k] w.cwd, none, ⟨Dir^[k] w.cwd⟩, by simp [GetModRootPath, hl], ?_, ?_⟩
    · exact ⟨fun _ => ⟨k, hm⟩, fun _ => rfl⟩
    · intro _; exact ⟨k, rfl, hm, hk⟩
  · refine ⟨['/'], some GoError.rootNotFound, s, by simp [GetModRootPath, hl], ?_, ?_⟩
    · constructor
      · intro h; simp at h
      · rintro ⟨j, hj⟩
        exfalso
        by_cases hjk : j < k
        · rw [hk j hjk] at hj; simp at hj
        · obtain ⟨d, rfl⟩ : ∃ d, j = d + k := ⟨j - k, by omega⟩
          rw [Function.iterate_add_apply, hroot, Dir_root_iterate, ← hroot, hm] at hj
          simp at hj
    · intro h; simp at h

/-- Claim C1, at the failing input: the working directory `/w` has no search
permission and no child at all; the root holds `etc`.  `os.Stat` of `/w/etc`
fails with `EACCES`, `Exists` takes that for existence, and `GetModRootPath`
returns `/w` with a nil error, although `/w` has no marker child and the
nearest directory of the chain that has one is its parent `/`. -/
theorem GetModRootPath_unsearchable :
    (exWorld ['/', 'w']).cwd.head? = some '/' ∧
    GetModRootPath (exWorld ['/', 'w']) ⟨[]⟩ = some ((['/', 'w'], none), ⟨['/', 'w']⟩) ∧
    Stat (exWorld ['/', 'w']) (['/', 'w'] ++ etcSuffix) = (none, some Errno.EACCES) ∧
    exFS.lookup [['w'], ['e', 't', 'c']] = none ∧
    exFS.lookup [['w'], ['d', 'a', 't', 'a']] = none ∧
    hasMarkerChild (exWorld ['/', 'w']) ['/', 'w'] = false ∧
    Dir ['/', 'w'] = ['/'] ∧
    hasMarkerChild (exWorld ['/', 'w']) ['/'] = true := by
  decide

/-- Claim C8: with a non-empty cache `GetRootPath` returns the cache and
keeps the state, whatever the world; with an empty cache `GetModRootPath`
returns some `(p, e)`, and `GetRootPath` returns `p` and stores it when `e`
is nil and panics with `e` otherwise; it panics exactly when the cache is
empty and `GetModRootPath` returns an error. -/
theorem GetRootPath_spec (w : World) (s : Pkg) :
    (s.rootPath ≠ [] → ∀ w1 : World, GetRootPath w1 s = some (.ret s.rootPath, s)) ∧
    (s.rootPath = [] → ∃ p e s1, GetModRootPath w s = some ((p, e), s1) ∧
      (e = none → GetRootPath w s = some (.ret p, ⟨p⟩)) ∧
      (∀ err, e = some err → GetRootPath w s = some (.panic (PanicValue.error err), s1))) ∧
    ((∃ v s1, GetRootPath w s = some (.panic v, s1)) ↔
      (s.rootPath = [] ∧ ∃ p err s1, GetModRootPath w s = some ((p, some err), s1))) := by
  refine ⟨?_, ?_, ?_⟩
  · intro h w1
    simp [GetRootPath, h]
  · intro h
    obtain ⟨p, e, s1, hg⟩ := GetModRootPath_total w s
    refine ⟨p, e, s1, hg, ?_, ?_⟩
    · intro he; subst he; simp [GetRootPath, h, hg]
    · intro err he; subst he; simp [GetRootPath, h, hg]
  · obtain ⟨p, e, s1, hg⟩ := GetModRootPath_total w s
    by_cases h : s.rootPath = []
    · cases e with
      | none => simp [GetRootPath, h, hg]
      | some err => simp [GetRootPath, h, hg]
    · simp [GetRootPath, h]

/-- Claim C8, witness: with the cache `/p` the function returns `/p` in the
working directory `/q`; with an empty cache in the working directory `/p`
(which holds `etc`) it returns `/p` and stores it. -/
theorem GetRootPath_spec_witness :
    GetRootPath (exWorld ['/', 'q']) ⟨['/', 'p']⟩ = some (.ret ['/', 'p'], ⟨['/', 'p']⟩) ∧
    GetRootPath (exWorld ['/', 'p']) ⟨[]⟩ = some (.ret ['/', 'p'], ⟨['/', 'p']⟩) :=
  ⟨(GetRootPath_spec (exWorld ['/', 'q']) ⟨['/', 'p']⟩).1 (by decide) (exWorld ['/', 'q']),
   by
    obtain ⟨p, e, s1, hg, h1, _⟩ := (GetRootPath_spec (exWorld ['/', 'p']) ⟨[]⟩).2.1 rfl
    have hc : GetModRootPath (exWorld ['/', 'p']) ⟨[]⟩ =
        some ((['/', 'p'], none), ⟨['/', 'p']⟩) := by decide
    rw [hc] at hg
    simp only [Option.some.injEq, Prod.mk.injEq] at hg
    obtain ⟨⟨rfl, rfl⟩, _⟩ := hg
    exact h1 rfl⟩

/-- Where `os.Stat` fails with no other error than not-exist, `Exists` tells
whether an entry is present. -/
theorem Exists_eq_entryAt (w : World) (p : GoString)
    (h : ∀ e, (Stat w p).2 = some e → e = Errno.ENOENT) : Exists w p = entryAt w p := by
  unfold Exists entryAt IsNotExist
  unfold Stat at h ⊢
  cases hr : resolve w p with
  | ok r => simp
  | error e =>
    rw [hr] at h
    have := h e rfl
    subst this
    simp

/-- The walk of `GetModRootPath` in a world where no `os.Stat` of a marker
path on the chain fails with an error other than not-exist: the error is nil
exactly when a directory of the chain has a child `etc` or `data`, and the
path returned is the nearest such directory. -/
theorem GetModRootPath_nearest (w : World) (s : Pkg) (habs : w.cwd.head? = some '/')
    (hstat : ∀ (k : Nat) (suffix : GoString) (e : Errno),
      (Stat w (Dir^[k] w.cwd ++ suffix)).2 = some e → e = Errno.ENOENT) :
    ∃ p e s1, GetModRootPath w s = some ((p, e), s1) ∧
      (e = none ↔ ∃ k, hasMarkerChild w (Dir^[k] w.cwd) = true) ∧
      (e = none → ∃ k, p = Dir^[k] w.cwd ∧ hasMarkerChild w p = true ∧
        ∀ j, j < k → hasMarkerChild w (Dir^[j] w.cwd) = false) := by
  have hm : ∀ k, marked w (Dir^[k] w.cwd) = hasMarkerChild w (Dir^[k] w.cwd) := by
    intro k
    unfold marked hasMarkerChild
    rw [Exists_eq_entryAt w _ (hstat k etcSuffix), Exists_eq_entryAt w _ (hstat k dataSuffix)]
  obtain ⟨p, e, s1, hg, hiff, hnear⟩ := GetModRootPath_walk w s habs
  refine ⟨p, e, s1, hg, ?_, ?_⟩
  · rw [hiff]
    constructor
    · rintro ⟨k, hk⟩; exact ⟨k, by rw [← hm]; exact hk⟩
    · rintro ⟨k, hk⟩; exact ⟨k, by rw [hm]; exact hk⟩
  · intro he
    obtain ⟨k, hp, hk, hj⟩ := hnear he
    subst hp
    exact ⟨k, rfl, by rw [← hm]; exact hk, fun j hjk => by rw [← hm]; exact hj j hjk⟩


/-! ## The cached root path -/

/-- A call other than `GetModRootPath` keeps a non-empty cache. -/
theorem exec_keeps (c : Call) (w : World) (s : Pkg) (hc : c ≠ Call.GetModRootPath)
    (hs : s.rootPath ≠ []) : (c.exec w s).2 = s := by
  cases c with
  | GetModRootPath => exact absurd rfl hc
  | GetRootPath => simp [Call.exec, GetRootPath, hs]
  | GetCmdRootPath => rfl
  | IsExist p => rfl
  | Size p => rfl
  | Exists p => rfl
  | IsWritable p => rfl
  | PreCreateDirectory p =>
    simp only [Call.exec]
    split <;> rfl

/-- How `GetModRootPath` writes the cache: on success the path it returns,
on failure nothing. -/
theorem GetModRootPath_state (w : World) (s : Pkg) (p : GoString) (e : Option GoError)
    (s1 : Pkg) (h : GetModRootPath w s = some ((p, e), s1)) :
    (e = none → s1.rootPath = p) ∧ (e ≠ none → s1 = s) := by
  unfold GetModRootPath at h
  split at h
  · simp at h
  · simp only [Option.some.injEq, Prod.mk.injEq] at h
    obtain ⟨⟨rfl, rfl⟩, rfl⟩ := h
    simp
  · simp only [Option.some.injEq, Prod.mk.injEq] at h
    obtain ⟨⟨rfl, rfl⟩, rfl⟩ := h
    simp

/-- Claim C2, as stated, fails: `GetRootPath` in the working directory `/p`
caches `/p`; after a change of the working directory to `/q` a call of
`GetModRootPath` replaces the non-empty cache by `/`. -/
theorem rootPath_overwritten :
    (run (exWorld ['/', 'p'], ⟨[]⟩) [⟨id, Call.GetRootPath⟩]).2.rootPath = ['/', 'p'] ∧
    (run (run (exWorld ['/', 'p'], ⟨[]⟩) [⟨id, Call.GetRootPath⟩])
      [⟨fun w => { w with cwd := ['/', 'q'] }, Call.GetModRootPath⟩]).2.rootPath = ['/'] := by
  decide

/-- Claim C2, amended: once `rootPath` is non-empty, no sequence of calls of
`GetRootPath`, `GetCmdRootPath`, the probes and `PreCreateDirectory` changes
it, whatever the environment does between the calls; a call of
`GetModRootPath` writes the path it returns when it succeeds and writes
nothing when it fails. -/
theorem rootPath_kept (st : World × Pkg) (steps : List Step) :
    (st.2.rootPath ≠ [] → (∀ x, x ∈ steps → x.call ≠ Call.GetModRootPath) →
      (run st steps).2.rootPath = st.2.rootPath) ∧
    (∀ (w : World) (s : Pkg) (p : GoString) (e : Option GoError) (s1 : Pkg),
      GetModRootPath w s = some ((p, e), s1) →
        (e = none → s1.rootPath = p) ∧ (e ≠ none → s1 = s)) := by
  refine ⟨?_, GetModRootPath_state⟩
  induction steps generalizing st with
  | nil => intro _ _; rfl
  | cons x xs ih =>
    intro hs hc
    have hx := exec_keeps x.call (x.env st.1) st.2 (hc x (List.mem_cons_self _ _)) hs
    have hrun : run st (x :: xs) = run (x.call.exec (x.env st.1) st.2) xs := rfl
    rw [hrun, ih _ (by rw [hx]; exact hs) (fun y hy => hc y (List.mem_cons_of_mem _ hy)), hx]

/-- Claim C2, amended, witness: with the cache `/p`, a change of the working
directory to `/q` and the calls `GetRootPath`, `IsWritable "/q"` and
`PreCreateDirectory "/q/a"` leave the cache at `/p`. -/
theorem rootPath_kept_witness :
    (run (exWorld ['/', 'p'], ⟨['/', 'p']⟩)
      [⟨fun w => { w with cwd := ['/', 'q'] }, Call.GetRootPath⟩,
       ⟨id, Call.IsWritable ['/', 'q']⟩,
       ⟨id, Call.PreCreateDirectory ['/', 'q', '/', 'a']⟩]).2.rootPath = ['/', 'p'] :=
  (rootPath_kept (exWorld ['/', 'p'], ⟨['/', 'p']⟩)
      [⟨fun w => { w with cwd := ['/', 'q'] }, Call.GetRootPath⟩,
       ⟨id, Call.IsWritable ['/', 'q']⟩,
       ⟨id, Call.PreCreateDirectory ['/', 'q', '/', 'a']⟩]).1 (by decide)
    (by
      intro x hx
      simp only [List.mem_cons, List.mem_singleton, List.not_mem_nil, or_false] at hx
      rcases hx with rfl | rfl | rfl <;> simp)


/-! ## Path resolution -/

theorem splitSlash_ne_nil (p : GoString) : splitSlash p ≠ [] := by
  cases p with
  | nil => simp [splitSlash]
  | cons c cs =>
    simp only [splitSlash]
    split
    · simp
    · split <;> simp

theorem splitSlash_append (X Y : GoString) :
    splitSlash (X ++ '/' :: Y) = splitSlash X ++ splitSlash Y := by
  induction X with
  | nil => simp [splitSlash, IsPathSeparator]
  | cons c X ih =>
    rw [List.cons_append]
    by_cases hc : IsPathSeparator c = true
    · simp only [splitSlash, hc, if_true, ih]; rfl
    · simp only [splitSlash, hc, if_false, ih]
      cases h : splitSlash X with
      | nil => exact absurd h (splitSlash_ne_nil X)
      | cons a t => rfl

theorem components_append (X Y : GoString) :
    components (X ++ '/' :: Y) = components X ++ components Y := by
  simp only [components, splitSlash_append, List.filter_append]

theorem absPath_append (w : World) (D S : GoString) (hD : D ≠ []) :
    absPath w (D ++ S) = absPath w D ++ S := by
  cases D with
  | nil => exact absurd rfl hD
  | cons c t =>
    simp only [absPath, List.cons_append, List.head?_cons]
    split
    · rfl
    · simp

theorem FS.lookup_append (fs : FS) (k : CPath) (n : Node) (q : CPath) :
    FS.lookup (fs ++ [(k, n)]) q =
      match FS.lookup fs q with
      | some x => some x
      | none => if k = q then some n else none := by
  induction fs with
  | nil => simp [FS.lookup]
  | cons e fs ih =>
    obtain ⟨k1, n1⟩ := e
    simp only [List.cons_append, FS.lookup]
    split
    · rfl
    · exact ih

theorem FS.lookup_append_some (fs : FS) (k : CPath) (n x : Node) (q : CPath)
    (h : FS.lookup fs q = some x) : FS.lookup (fs ++ [(k, n)]) q = some x := by
  rw [FS.lookup_append, h]

theorem FS.erase_append_fresh (fs : FS) (k : CPath) (n : Node) (h : FS.lookup fs k = none) :
    FS.erase (fs ++ [(k, n)]) k = fs := by
  unfold FS.erase
  rw [List.filter_append]
  have h1 : List.filter (fun e : CPath × Node => !decide (e.1 = k)) [(k, n)] = [] := by simp
  rw [h1, List.append_nil, List.filter_eq_self]
  intro e he
  induction fs with
  | nil => simp at he
  | cons a fs ih =>
    obtain ⟨k1, n1⟩ := a
    simp only [FS.lookup] at h
    split at h
    · simp at h
    · rename_i hk
      rcases List.mem_cons.mp he with rfl | he
      · simpa using hk
      · exact ih h he

theorem walk_snoc (fs : FS) (cs : List Name) (c : Name) :
    walk fs (cs ++ [c]) = walkStep fs (walk fs cs) c := by
  simp [walk, List.foldl_append]

/-- Adding a binding for a path that had none keeps every successful
resolution. -/
theorem walk_append_fresh (fs : FS) (k : CPath) (n : Node) (cs : List Name)
    (r : CPath × Node) (h : walk fs cs = .ok r) : walk (fs ++ [(k, n)]) cs = .ok r := by
  induction cs using List.reverseRecOn generalizing r with
  | nil =>
    simp only [walk, List.foldl_nil] at h ⊢
    cases hl : FS.lookup fs [] with
    | none => rw [hl] at h; simp at h
    | some x => rw [hl] at h; rw [FS.lookup_append_some _ _ _ _ _ hl]; exact h
  | append_singleton cs c ih =>
    rw [walk_snoc] at h ⊢
    cases hw : walk fs cs with
    | error e => rw [hw] at h; simp [walkStep] at h
    | ok r1 =>
      rw [ih r1 hw]
      rw [hw] at h
      obtain ⟨cur, nd⟩ := r1
      simp only [walkStep] at h ⊢
      split
      · rename_i hc; simp [hc] at h
      · rename_i hc
        simp only [hc, Bool.false_eq_true, if_false] at h
        split
        · rename_i hc2; simp [hc2] at h
        · rename_i hc2
          simp only [hc2, Bool.false_eq_true, if_false] at h
          split
          · rename_i hc3; simpa [hc3] using h
          · rename_i hc3
            simp only [hc3, if_false] at h
            split
            · rename_i hc4
              simp only [hc4, if_true] at h
              cases hl : FS.lookup fs cur.dropLast with
              | none => rw [hl] at h; simp at h
              | some x => rw [hl] at h; rw [FS.lookup_append_some _ _ _ _ _ hl]; exact h
            · rename_i hc4
              simp only [hc4, if_false] at h
              cases hl : FS.lookup fs (cur ++ [c]) with
              | none => rw [hl] at h; simp at h
              | some x => rw [hl] at h; rw [FS.lookup_append_some _ _ _ _ _ hl]; exact h

theorem resolve_walk (w : World) (p : GoString) (r : CPath × Node) (h : resolve w p = .ok r) :
    p ≠ [] ∧ walk w.fs (components (absPath w p)) = .ok r := by
  unfold resolve at h
  split at h
  · simp at h
  · rename_i hp
    refine ⟨by intro h0; subst h0; simp at hp, ?_⟩
    split at h
    · simp at h
    · rename_i cp n hw
      split at h
      · simp at h
      · rw [hw]; exact h


/-! ## `IsWritable` -/

theorem components_child (w : World) (D : GoString) (name : Name) (hD : D ≠ [])
    (hname : components name = [name]) :
    components (absPath w (D ++ '/' :: name)) = components (absPath w D) ++ [name] := by
  rw [absPath_append w D _ hD, components_append, hname]

theorem resolveParent_child (w : World) (D : GoString) (name : Name) (cp : CPath) (nd : Node)
    (hname : components name = [name]) (hD : resolve w D = .ok (cp, nd))
    (hdir : nd.isDir = true) (hs : nd.searchable = true) :
    lastName w (D ++ '/' :: name) = some name ∧
    resolveParent w (D ++ '/' :: name) = .ok (cp, nd) := by
  obtain ⟨hne, hw⟩ := resolve_walk w D _ hD
  constructor
  · simp [lastName, components_child w D name hne hname]
  · simp [resolveParent, components_child w D name hne hname, hw, hdir, hs]

/-- Opening the probe file in a directory that can take a new file and has
no entry `.test` creates that entry. -/
theorem OpenFile_fresh (w : World) (D : GoString) (cp : CPath) (nd : Node)
    (hD : resolve w D = .ok (cp, nd)) (hdir : nd.isDir = true) (hs : nd.searchable = true)
    (hw : nd.writable = true) (hfresh : w.fs.lookup (cp ++ [testName]) = none) :
    OpenFile w (D ++ testSuffix) = (none, w.fs ++ [(cp ++ [testName], newFile)]) := by
  obtain ⟨hl, hp⟩ := resolveParent_child w D testName cp nd (by decide) hD hdir hs
  have he : (D ++ testSuffix).isEmpty = false := by
    cases D <;> simp [testSuffix]
  have hlast : (D ++ testSuffix).getLast? = some 't' := by
    rw [getLast?_append_ne _ _ (by simp [testSuffix])]; rfl
  have hts : testSuffix = '/' :: testName := rfl
  unfold OpenFile
  rw [he]
  simp only [Bool.false_eq_true, if_false]
  rw [hts] at hlast ⊢
  rw [hl, hp]
  have h1 : testName ≠ ['.'] := by decide
  have h2 : testName ≠ ['.', '.'] := by decide
  simp [hlast, hfresh, hw, h1, h2]

/-- Removing the probe file that was just created restores the table. -/
theorem Remove_probe (w : World) (D : GoString) (cp : CPath) (nd : Node)
    (hD : resolve w D = .ok (cp, nd)) (hdir : nd.isDir = true) (hs : nd.searchable = true)
    (hw : nd.writable = true) (hfresh : w.fs.lookup (cp ++ [testName]) = none) :
    Remove { w with fs := w.fs ++ [(cp ++ [testName], newFile)] } (D ++ testSuffix) =
      (none, w.fs) := by
  obtain ⟨hne, hwalk⟩ := resolve_walk w D _ hD
  have hcomp := components_child { w with fs := w.fs ++ [(cp ++ [testName], newFile)] } D testName
    hne (by decide)
  have habs : absPath { w with fs := w.fs ++ [(cp ++ [testName], newFile)] } D = absPath w D := rfl
  rw [habs] at hcomp
  have hwalk1 := walk_append_fresh w.fs (cp ++ [testName]) newFile _ _ hwalk
  have he : (D ++ testSuffix).isEmpty = false := by
    cases D <;> simp [testSuffix]
  have hlast : (D ++ testSuffix).getLast? = some 't' := by
    rw [getLast?_append_ne _ _ (by simp [testSuffix])]; rfl
  have hts : testSuffix = '/' :: testName := rfl
  have hlook : FS.lookup (w.fs ++ [(cp ++ [testName], newFile)]) (cp ++ [testName]) =
      some newFile := by
    rw [FS.lookup_append, hfresh]; simp
  unfold Remove
  rw [he]
  simp only [Bool.false_eq_true, if_false]
  rw [hts] at hlast ⊢
  have hl : (components (absPath w D) ++ [testName]).getLast? = some testName := by simp
  simp only [lastName, resolveParent, hcomp, hl, List.dropLast_concat, hwalk1, hdir, hs, hw,
    hlook, hlast, FS.erase_append_fresh _ _ _ hfresh]
  have h1 : testName ≠ ['.'] := by decide
  have h2 : testName ≠ ['.', '.'] := by decide
  have h3 : newFile.isDir = false := rfl
  simp [h1, h2, h3, hlook, hw, FS.erase_append_fresh _ _ _ hfresh]

/-- Claim C6, as stated, fails: the directory `/d` takes new files and holds
a file `.test`; `IsWritable "/d"` returns true and removes that entry, so the
entries of `/d` are not the same after the call. -/
theorem IsWritable_removes_entry :
    resolve (exWorld ['/']) ['/', 'd'] = .ok ([['d']], exDir) ∧
    exDir.isDir = true ∧ exDir.searchable = true ∧ exDir.writable = true ∧
    (IsWritable (exWorld ['/']) ['/', 'd']).1 = true ∧
    exFS.entries [['d']] = [testName] ∧
    (IsWritable (exWorld ['/']) ['/', 'd']).2.fs.entries [['d']] = [] := by
  decide

/-- Claim C6, amended: for a directory `D` in which the process can create
files (it resolves to a directory with search and write permission) and
which holds no entry named `.test`, `IsWritable D` returns true and leaves
the whole file system, so also the entries of `D`, as it was. -/
theorem IsWritable_fresh (w : World) (D : GoString) (cp : CPath) (nd : Node)
    (hD : resolve w D = .ok (cp, nd)) (hdir : nd.isDir = true) (hs : nd.searchable = true)
    (hw : nd.writable = true) (hfresh : w.fs.lookup (cp ++ [testName]) = none) :
    IsWritable w D = (true, w) ∧
    (IsWritable w D).2.fs.entries cp = w.fs.entries cp := by
  have h : IsWritable w D = (true, w) := by
    unfold IsWritable
    rw [OpenFile_fresh w D cp nd hD hdir hs hw hfresh]
    simp only [Remove_probe w D cp nd hD hdir hs hw hfresh]
  exact ⟨h, by rw [h]⟩

/-- Claim C6, amended, witness: the empty directory `/q`. -/
theorem IsWritable_fresh_witness :
    IsWritable (exWorld ['/']) ['/', 'q'] = (true, exWorld ['/']) ∧
    (IsWritable (exWorld ['/']) ['/', 'q']).2.fs.entries [['q']] = exFS.entries [['q']] :=
  IsWritable_fresh (exWorld ['/']) ['/', 'q'] [['q']] exDir (by decide) rfl rfl rfl (by decide)


/-! ## `os.MkdirAll` and `PreCreateDirectory` -/

/-- The parent `os.MkdirAll` recurses on is strictly shorter than the path. -/
theorem mkdirAllParent_length (path : GoString) (h : 0 < (mkdirAllParent path).length) :
    (mkdirAllParent path).length < path.length := by
  unfold mkdirAllParent at h ⊢
  rw [List.length_reverse] at h ⊢
  have h1 := dropWhile_length_le IsPathSeparator path.reverse
  rw [List.length_reverse] at h1
  rcases dropWhile_head IsPathSeparator path.reverse with h0 | ⟨a, t, h0, ha⟩
  · rw [h0] at h; simp at h
  · rw [h0] at h1 ⊢
    rw [List.dropWhile_cons_of_pos (by simp [ha])]
    have h2 := dropWhile_length_le (fun b => !IsPathSeparator b) t
    simp only [List.length_cons] at h1
    omega

/-- The function `os.MkdirAll` returns: a fuel above the length of the path
is never exhausted. -/
theorem MkdirAll_isSome : ∀ (fuel : Nat) (w : World) (path : GoString),
    path.length < fuel → ∃ r, MkdirAll fuel w path = some r := by
  intro fuel
  induction fuel with
  | zero => intro _ path h; omega
  | succ fuel ih =>
    intro w path h
    have hrec : ∃ r, (if 0 < (mkdirAllParent path).length
        then MkdirAll fuel w (mkdirAllParent path) else some (none, w.fs)) = some r := by
      split
      · rename_i hp
        exact ih w _ (by have := mkdirAllParent_length path hp; omega)
      · exact ⟨_, rfl⟩
    obtain ⟨⟨e, fs1⟩, hr⟩ := hrec
    unfold MkdirAll
    split
    · split <;> exact ⟨_, rfl⟩
    · simp only [hr]
      cases e with
      | some e => exact ⟨_, rfl⟩
      | none =>
        simp only []
        split
        · exact ⟨_, rfl⟩
        · split
          · split <;> exact ⟨_, rfl⟩
          · exact ⟨_, rfl⟩

/-- The function `PreCreateDirectory` returns for every path. -/
theorem PreCreateDirectory_total (w : World) (p : GoString) :
    ∃ r, PreCreateDirectory w p = some r := by
  unfold PreCreateDirectory
  split
  · exact ⟨_, rfl⟩
  · obtain ⟨⟨e, fs1⟩, h⟩ := MkdirAll_isSome (p.length + 1) w p (by omega)
    rw [h]
    exact ⟨_, rfl⟩

theorem Stat_ok_iff (w : World) (p : GoString) (i : FileInfo) :
    Stat w p = (some i, none) ↔ ∃ cp n, resolve w p = .ok (cp, n) ∧ i = ⟨n.isDir, n.size⟩ := by
  unfold Stat
  cases resolve w p with
  | error e => simp
  | ok r =>
    obtain ⟨cp, n⟩ := r
    constructor
    · intro h
      simp only [Prod.mk.injEq, Option.some.injEq, and_true] at h
      exact ⟨cp, n, rfl, h.symm⟩
    · rintro ⟨cp1, n1, h, rfl⟩
      simp only [Except.ok.injEq, Prod.mk.injEq] at h
      obtain ⟨rfl, rfl⟩ := h
      rfl

/-- After a successful `os.Mkdir` the path resolves to the new directory. -/
theorem Mkdir_ok (w : World) (path : GoString) (fs2 : FS) (h : Mkdir w path = (none, fs2)) :
    ∃ cp n, resolve { w with fs := fs2 } path = .ok (cp, n) ∧ n.isDir = true := by
  unfold Mkdir at h
  split at h
  · simp at h
  · rename_i hne
    split at h
    · simp at h
    · rename_i last hlast
      split at h
      · simp at h
      · rename_i cp nd hpar
        split at h
        · simp at h
        · rename_i hdots
          split at h
          · simp at h
          · rename_i hlook
            split at h
            · simp at h
            · simp only [Prod.mk.injEq, true_and] at h
              subst h
              -- the parent resolves as before, the new entry is found
              unfold resolveParent at hpar
              split at hpar
              · simp at hpar
              · rename_i cp1 nd1 hwalk
                split at hpar
                · simp at hpar
                · rename_i hdir
                  split at hpar
                  · simp at hpar
                  · rename_i hsearch
                    simp only [Except.ok.injEq, Prod.mk.injEq] at hpar
                    obtain ⟨rfl, rfl⟩ := hpar
                    have hcs : components (absPath w path) =
                        (components (absPath w path)).dropLast ++ [last] := by
                      unfold lastName at hlast
                      exact (List.dropLast_append_getLast? _ hlast).symm
                    have hwalk1 := walk_append_fresh w.fs (cp1 ++ [last]) newDir _ _ hwalk
                    have hl1 : FS.lookup (w.fs ++ [(cp1 ++ [last], newDir)]) (cp1 ++ [last]) =
                        some newDir := by
                      rw [FS.lookup_append, hlook]; simp
                    simp only [Bool.or_eq_true, decide_eq_true_eq, not_or] at hdots
                    refine ⟨cp1 ++ [last], newDir, ?_, rfl⟩
                    have habs : absPath { w with fs := w.fs ++ [(cp1 ++ [last], newDir)] } path =
                        absPath w path := rfl
                    unfold resolve
                    rw [habs, hcs, walk_snoc, hwalk1]
                    simp only [Bool.not_eq_true] at hne
                    simp only [hne, Bool.false_eq_true, if_false, walkStep]
                    simp only [Bool.not_eq_true, Bool.not_eq_true'] at hdir hsearch
                    have hnd : newDir.isDir = true := rfl
                    simp [hdir, hsearch, hdots.1, hdots.2, hl1, hnd]

/-- After a successful `os.MkdirAll` the path resolves to a directory. -/
theorem MkdirAll_ok : ∀ (fuel : Nat) (w : World) (path : GoString) (fs1 : FS),
    MkdirAll fuel w path = some (none, fs1) →
    ∃ cp n, resolve { w with fs := fs1 } path = .ok (cp, n) ∧ n.isDir = true := by
  intro fuel
  cases fuel with
  | zero => intro w path fs1 h; simp [MkdirAll] at h
  | succ fuel =>
    intro w path fs1 h
    unfold MkdirAll at h
    split at h
    · rename_i dir hstat
      split at h
      · rename_i hd
        simp only [Option.some.injEq, Prod.mk.injEq, true_and] at h
        subst h
        obtain ⟨cp, n, hr, hi⟩ := (Stat_ok_iff w path dir).mp hstat
        refine ⟨cp, n, hr, ?_⟩
        rw [hi] at hd; exact hd
      · simp at h
    · simp only [] at h
      split at h
      · simp at h
      · simp at h
      · rename_i fsP hrec
        split at h
        · rename_i fs2 hmk
          simp only [Option.some.injEq, Prod.mk.injEq, true_and] at h
          subst h
          have := Mkdir_ok { w with fs := fsP } path fs2 hmk
          exact this
        · rename_i e fs2 hmk
          split at h
          · rename_i dir hstat
            split at h
            · rename_i hd
              simp only [Option.some.injEq, Prod.mk.injEq, true_and] at h
              subst h
              obtain ⟨cp, n, hr, hi⟩ := (Stat_ok_iff _ path dir).mp hstat
              refine ⟨cp, n, hr, ?_⟩
              rw [hi] at hd; exact hd
            · simp at h
          · simp at h

theorem Exists_of_resolve (w : World) (p : GoString) (r : CPath × Node)
    (h : resolve w p = .ok r) : Exists w p = true := by
  simp [Exists, Stat, h, IsNotExist]

/-- The idempotence of `PreCreateDirectory`: after a call that returned nil,
`Exists` is true and a second call returns nil and changes nothing. -/
theorem PreCreateDirectory_again (w w1 : World) (p : GoString)
    (h : PreCreateDirectory w p = some (none, w1)) :
    Exists w1 p = true ∧ PreCreateDirectory w1 p = some (none, w1) := by
  have key : Exists w1 p = true := by
    unfold PreCreateDirectory at h
    split at h
    · rename_i he
      simp only [Option.some.injEq, Prod.mk.injEq, true_and] at h
      subst h; exact he
    · split at h
      · simp at h
      · rename_i err fs1 hmk
        simp only [Option.some.injEq, Prod.mk.injEq] at h
        obtain ⟨he, rfl⟩ := h
        cases err with
        | some e => simp at he
        | none =>
          obtain ⟨cp, n, hr, _⟩ := MkdirAll_ok _ w p fs1 hmk
          exact Exists_of_resolve _ _ _ hr
  exact ⟨key, by simp [PreCreateDirectory, key]⟩

/-- When `PreCreateDirectory` returns nil for a path at which `os.Stat` did
not fail with an error other than not-exist, an entry is present at the path
afterwards, and it is a directory when the call had to create it. -/
theorem PreCreateDirectory_present (w w1 : World) (p : GoString)
    (h : PreCreateDirectory w p = some (none, w1))
    (hstat : ∀ e, (Stat w p).2 = some e → e = Errno.ENOENT) :
    entryAt w1 p = true ∧
      (Exists w p = false → ∃ cp n, resolve w1 p = .ok (cp, n) ∧ n.isDir = true) := by
  unfold PreCreateDirectory at h
  split at h
  · rename_i he
    simp only [Option.some.injEq, Prod.mk.injEq, true_and] at h
    subst h
    constructor
    · rcases Stat_cases w p with ⟨i, hs⟩ | ⟨e, hs⟩
      · obtain ⟨cp, n, hr, _⟩ := (Stat_ok_iff w p i).mp hs
        simp [entryAt, hr]
      · have := hstat e (by rw [hs])
        subst this
        simp [Exists, hs, IsNotExist] at he
    · intro hf; rw [hf] at he; simp at he
  · split at h
    · simp at h
    · rename_i err fs1 hmk
      simp only [Option.some.injEq, Prod.mk.injEq] at h
      obtain ⟨he, rfl⟩ := h
      cases err with
      | some e => simp at he
      | none =>
        obtain ⟨cp, n, hr, hd⟩ := MkdirAll_ok _ w p fs1 hmk
        exact ⟨by simp [entryAt, hr], fun _ => ⟨cp, n, hr, hd⟩⟩

/-- Claim C7, at the failing input: the path `/f/x` below the regular file
`/f`.  `os.Stat` fails with `ENOTDIR`, `Exists` takes that for existence, and
`PreCreateDirectory` returns nil without creating anything: `Exists` stays
true and a second call is the same, but no entry is present at `/f/x` and
the element `/f` of the chain is a regular file. -/
theorem PreCreateDirectory_below_file :
    PreCreateDirectory (exWorld ['/']) ['/', 'f', '/', 'x'] = some (none, exWorld ['/']) ∧
    Stat (exWorld ['/']) ['/', 'f', '/', 'x'] = (none, some Errno.ENOTDIR) ∧
    Exists (exWorld ['/']) ['/', 'f', '/', 'x'] = true ∧
    entryAt (exWorld ['/']) ['/', 'f', '/', 'x'] = false ∧
    exFS.lookup [['f'], ['x']] = none ∧
    Stat (exWorld ['/']) ['/', 'f'] = (some ⟨false, 11⟩, none) := by
  decide


end file
